import Mathlib

/-!
Shallow embedding of the syntax-tree query engine of an Elm language
server (`TreeUtils` and the AST reparse handler), together with proofs
about its navigation, exposing-list and resolution operations.

Syntax nodes are modelled as finitely branching trees carrying the
attributes the code reads: a kind tag, the named/anonymous flag, the
node text, the optional field name under which the node sits in its
parent, and a start/end position.  Upward navigation (parent,
named-sibling lookups) is modelled with a zipper.
-/

/-- A line/column position (tree-sitter `Point`, LSP `Position`). -/
structure Pos where
  row : Nat
  col : Nat
  deriving DecidableEq, Repr

/-- Lexicographic order on positions. -/
def Pos.le (a b : Pos) : Bool :=
  a.row < b.row || (a.row == b.row && a.col ≤ b.col)

/-- The attributes of one syntax node, minus its children. -/
structure NData where
  kind : String
  namd : Bool
  text : String
  fieldTag : Option String
  startPos : Pos
  endPos : Pos
  deriving DecidableEq, Repr

/-- A concrete syntax node: attributes plus ordered children. -/
inductive SNode where
  | mk (dat : NData) (children : List SNode)

def SNode.dat : SNode → NData
  | .mk d _ => d

def SNode.children : SNode → List SNode
  | .mk _ cs => cs

def SNode.kind (n : SNode) : String := n.dat.kind
def SNode.namd (n : SNode) : Bool := n.dat.namd
def SNode.text (n : SNode) : String := n.dat.text

/-- `node.childForFieldName(f)`: first child stored under field `f`. -/
def childForFieldName (f : String) (n : SNode) : Option SNode :=
  n.children.find? (fun c => c.dat.fieldTag = some f)

/-- `TreeUtils.findFirstNamedChildOfType`: despite its name, the source
scans `node.children` (all children) for the first child with the kind. -/
def findFirstNamedChildOfType (t : String) (n : SNode) : Option SNode :=
  n.children.find? (fun c => c.kind = t)

/-- `TreeUtils.findAllNamedChildrenOfType` for a list of kinds: filters
`node.children` and yields `none` when the result is empty. -/
def findAllNamedChildrenOfType (ts : List String) (n : SNode) : Option (List SNode) :=
  let result := n.children.filter (fun c => ts.contains c.kind)
  if result.isEmpty then none else some result

/-- `firstNamedChild` on a plain node (downward only). -/
def SNode.firstNamedChild (n : SNode) : Option SNode :=
  n.children.find? (·.namd)

mutual

/-- `node.descendantsOfType(t)`: all nodes of the given kind in the
subtree (self included), in document (pre-)order. -/
def descendantsOfType : SNode → String → List SNode
  | .mk d cs, t => (if d.kind = t then [.mk d cs] else []) ++ descendantsListOfType cs t

/-- Document-order collection of `descendantsOfType` over a child list. -/
def descendantsListOfType : List SNode → String → List SNode
  | [], _ => []
  | c :: rest, t => descendantsOfType c t ++ descendantsListOfType rest t

end

/-! ## Zipper: nodes with upward (parent / sibling) navigation

A `ZNode` is a focused subtree together with the stack of sibling
contexts above it, innermost first.  `before` stores the left siblings
nearest-first; `after` stores the right siblings in document order.
This models tree-sitter's weak parent back-references purely. -/

structure Ctx where
  dat : NData
  before : List SNode
  after : List SNode

structure ZNode where
  focus : SNode
  path : List Ctx

/-- Rebuild the node one level above a context. -/
def Ctx.rebuild (c : Ctx) (s : SNode) : SNode :=
  .mk c.dat (c.before.reverse ++ s :: c.after)

def ZNode.parent : ZNode → Option ZNode
  | ⟨_, []⟩ => none
  | ⟨s, c :: cs⟩ => some ⟨c.rebuild s, cs⟩

/-- Scan a sibling list for the first named node, accumulating the
skipped anonymous nodes (nearest-first) onto `acc`. -/
def scanNamed (acc : List SNode) : List SNode → Option (List SNode × SNode × List SNode)
  | [] => none
  | x :: xs => if x.namd then some (acc, x, xs) else scanNamed (x :: acc) xs

/-- `node.nextNamedSibling`. -/
def ZNode.nextNamedSibling : ZNode → Option ZNode
  | ⟨_, []⟩ => none
  | ⟨s, c :: cs⟩ =>
    (scanNamed [] c.after).map fun (acc, y, rest) =>
      ⟨y, ⟨c.dat, acc ++ s :: c.before, rest⟩ :: cs⟩

/-- `node.previousNamedSibling`. -/
def ZNode.previousNamedSibling : ZNode → Option ZNode
  | ⟨_, []⟩ => none
  | ⟨s, c :: cs⟩ =>
    (scanNamed [] c.before).map fun (acc, y, rest) =>
      ⟨y, ⟨c.dat, rest, acc.reverse ++ s :: c.after⟩ :: cs⟩

/-- `node.firstNamedChild`, keeping the zipper. -/
def ZNode.firstNamedChild : ZNode → Option ZNode
  | ⟨.mk d cs, p⟩ =>
    (scanNamed [] cs).map fun (acc, y, rest) => ⟨y, ⟨d, acc, rest⟩ :: p⟩

/-- `node.lastNamedChild`, keeping the zipper. -/
def ZNode.lastNamedChild : ZNode → Option ZNode
  | ⟨.mk d cs, p⟩ =>
    (scanNamed [] cs.reverse).map fun (acc, y, rest) => ⟨y, ⟨d, rest, acc⟩ :: p⟩

def ZNode.kind (z : ZNode) : String := z.focus.kind
def ZNode.namd (z : ZNode) : Bool := z.focus.namd
def ZNode.text (z : ZNode) : String := z.focus.text

/-- The climbing loop of `TreeUtils.nextNode`:
`while (!node.nextNamedSibling && node.parent) node = node.parent`. -/
def climbZ : SNode → List Ctx → ZNode
  | s, [] => ⟨s, []⟩
  | s, c :: cs =>
    if (ZNode.nextNamedSibling ⟨s, c :: cs⟩).isSome then ⟨s, c :: cs⟩
    else climbZ (c.rebuild s) cs

mutual

/-- The descending loop of `TreeUtils.nextNode`:
`while (node.firstNamedChild) node = node.firstNamedChild`. -/
def descendFirstZ : SNode → List Ctx → ZNode
  | .mk d cs, p => descendFirstAux d [] cs p

/-- Walk a child list for the first named child, descending into it;
when none remains the (rebuilt) node itself is the answer. -/
def descendFirstAux (d : NData) (bef : List SNode) (aft : List SNode) (p : List Ctx) : ZNode :=
  match aft with
  | [] => ⟨.mk d bef.reverse, p⟩
  | c :: rest =>
    if c.namd then descendFirstZ c (⟨d, bef, rest⟩ :: p)
    else descendFirstAux d (c :: bef) rest p

end

/-- `TreeUtils.nextNode`: climb to the nearest ancestor with a next
named sibling, step to it, and descend its leftmost named chain. -/
def nextNode (z : ZNode) : Option ZNode :=
  let w := climbZ z.focus z.path
  w.nextNamedSibling.map fun y => descendFirstZ y.focus y.path

mutual

/-- The leaves of the named-children projection of a subtree, in
document order, as zipper nodes placed under the given context. -/
def leavesZ : SNode → List Ctx → List ZNode
  | .mk d cs, p =>
    if cs.any (·.namd) then leavesChild d [] cs p else [⟨.mk d cs, p⟩]

/-- Document-order concatenation of the leaves of the named children of
one node, walking its child list. -/
def leavesChild (d : NData) (bef : List SNode) (aft : List SNode) (p : List Ctx) : List ZNode :=
  match aft with
  | [] => []
  | c :: rest =>
    (if c.namd then leavesZ c (⟨d, bef, rest⟩ :: p) else []) ++
      leavesChild d (c :: bef) rest p

end

/-! ## Position lookups (tree-sitter `namedDescendantForPosition`) -/

/-- Whether the node's span covers the closed range from `s` to `e`. -/
def coversRange (n : SNode) (s e : Pos) : Bool :=
  Pos.le n.dat.startPos s && Pos.le e n.dat.endPos

mutual

/-- Walk down into the first child covering the range, remembering the
deepest named covering node seen so far. -/
def namedDescNode (s e : Pos) (best : SNode) : SNode → SNode
  | .mk _ cs => namedDescList s e best cs

def namedDescList (s e : Pos) (best : SNode) : List SNode → SNode
  | [] => best
  | c :: rest =>
    if coversRange c s e then namedDescNode s e (if c.namd then c else best) c
    else namedDescList s e best rest

end

/-- Model of tree-sitter's `namedDescendantForPosition(start, end)`:
the deepest named node covering the range, defaulting to the root. -/
def tsNamedDescendantForRange (root : SNode) (s e : Pos) : SNode :=
  namedDescNode s e root root

/-- Model of tree-sitter's single-point `namedDescendantForPosition`. -/
def tsNamedDescendantForPoint (root : SNode) (p : Pos) : SNode :=
  tsNamedDescendantForRange root p p

/-! ## `TreeUtils.getNamedDescendantForPosition` and line lookups -/

/-- JS `text.split("\n")` on a character list. -/
def splitLinesJS : List Char → List (List Char)
  | [] => [[]]
  | c :: rest =>
    let r := splitLinesJS rest
    if c = '\n' then [] :: r
    else
      match r with
      | l :: ls => (c :: l) :: ls
      | [] => [[c]]

/-- The test of `functionNameRegex` (`[a-zA-Z0-9_]+`, unanchored):
does the string contain an identifier character? -/
def hasIdentChar (l : List Char) : Bool :=
  l.any fun c => c.isAlphanum || c = '_'

/-- `TreeUtils.getNamedDescendantForPosition`.  Indexing the split line
list at an out-of-range line makes the JS code dereference `undefined`
(a thrown `TypeError`), modelled as `.error ()`. -/
def getNamedDescendantForPosition (node : SNode) (position : Pos) : Except Unit SNode :=
  let previousCharColumn := if position.col = 0 then 0 else position.col - 1
  match (splitLinesJS node.text.data).get? position.row with
  | none => .error ()
  | some line =>
    let charBeforeCursor := (line.drop previousCharColumn).take (position.col - previousCharColumn)
    if !hasIdentChar charBeforeCursor then
      .ok (tsNamedDescendantForPoint node ⟨position.row, position.col⟩)
    else
      .ok (tsNamedDescendantForRange node ⟨position.row, previousCharColumn⟩
        ⟨position.row, position.col⟩)

/-- `TreeUtils.getNamedDescendantForLineBeforePosition`. -/
def getNamedDescendantForLineBeforePosition (node : SNode) (position : Pos) : SNode :=
  let previousLine := if position.row = 0 then 0 else position.row - 1
  tsNamedDescendantForPoint node ⟨previousLine, 0⟩

/-- `TreeUtils.getNamedDescendantForLineAfterPosition`. -/
def getNamedDescendantForLineAfterPosition (node : SNode) (position : Pos) : SNode :=
  tsNamedDescendantForPoint node ⟨position.row + 1, 0⟩

/-! ## Module declaration and exposing lists -/

/-- `TreeUtils.findModuleDeclaration`:
`tree.rootNode.childForFieldName("moduleDeclaration")`. -/
def findModuleDeclaration (tree : SNode) : Option SNode :=
  childForFieldName "moduleDeclaration" tree

/-- JS `text.startsWith(pre)`. -/
def strStartsWith (text pre : String) : Bool :=
  pre.data.isPrefixOf text.data

/-- `TreeUtils.isExposedFunction`. -/
def isExposedFunction (tree : SNode) (functionName : String) : Bool :=
  match findModuleDeclaration tree with
  | some module =>
    match findFirstNamedChildOfType "exposing_list" module with
    | some exposingList =>
      if (findFirstNamedChildOfType "double_dot" exposingList).isSome then true
      else (descendantsOfType module "exposed_value").any (fun desc => desc.text == functionName)
    | none => (descendantsOfType module "exposed_value").any (fun desc => desc.text == functionName)
  | none => false

/-- `TreeUtils.isExposedTypeOrTypeAlias`. -/
def isExposedTypeOrTypeAlias (tree : SNode) (typeName : String) : Bool :=
  match findModuleDeclaration tree with
  | some module =>
    match findFirstNamedChildOfType "exposing_list" module with
    | some exposingList =>
      if (findFirstNamedChildOfType "double_dot" exposingList).isSome then true
      else (descendantsOfType module "exposed_type").any (fun desc => strStartsWith desc.text typeName)
    | none => (descendantsOfType module "exposed_type").any (fun desc => strStartsWith desc.text typeName)
  | none => false

/-- `TreeUtils.findExposedFunctionNode`. -/
def findExposedFunctionNode (node : SNode) (functionName : String) : Option SNode :=
  match findFirstNamedChildOfType "exposing_list" node with
  | some exposingList =>
    if (findFirstNamedChildOfType "double_dot" exposingList).isSome then none
    else (descendantsOfType node "exposed_value").find? (fun desc => desc.text == functionName)
  | none => (descendantsOfType node "exposed_value").find? (fun desc => desc.text == functionName)

/-- `TreeUtils.findExposedTypeOrTypeAliasNode`. -/
def findExposedTypeOrTypeAliasNode (node : SNode) (typeName : String) : Option SNode :=
  match findFirstNamedChildOfType "exposing_list" node with
  | some exposingList =>
    if (findFirstNamedChildOfType "double_dot" exposingList).isSome then none
    else
      ((descendantsOfType node "exposed_type").find?
        (fun desc => strStartsWith desc.text typeName)).bind SNode.firstNamedChild
  | none =>
    ((descendantsOfType node "exposed_type").find?
      (fun desc => strStartsWith desc.text typeName)).bind SNode.firstNamedChild

/-! ## `TreeUtils.findFieldReference` -/

/-- A definition node carried by the checker's field-reference table,
with the identity (`tree.uri`) of the tree owning it. -/
structure FieldRef where
  node : SNode
  treeUri : String

/-- Modelled from the spec: the external checker's `Record` type shape,
"a `Record` type shape exposing `fieldReferences: name -> ordered list
of definition nodes`" (the checker's `Type` model is outside this
core); only the kind tag and the reference lists are consumed. -/
structure TypeShape where
  nodeType : String
  fieldReferences : String → List FieldRef

/-- The `{node, uri, nodeType}` result shape of `findFieldReference`. -/
structure FieldRefResult where
  node : SNode
  uri : String
  nodeType : String

/-- `TreeUtils.findFieldReference`. -/
def findFieldReference (type : TypeShape) (fieldName : String) : Option FieldRefResult :=
  if type.nodeType = "Record" then
    let fieldRefs := type.fieldReferences fieldName
    if 0 < fieldRefs.length then
      match fieldRefs.head? with
      | some fr =>
        let refUri := fr.treeUri
        if refUri ≠ "" then some ⟨fr.node, refUri, "FieldType"⟩ else none
      | none => none
    else none
  else none

/-! ## Zipper-level child and descendant collection -/

/-- The children of a focused node, as zipper nodes, in order. -/
def childrenZAux (d : NData) (bef : List SNode) (aft : List SNode) (p : List Ctx) : List ZNode :=
  match aft with
  | [] => []
  | c :: rest => ⟨c, ⟨d, bef, rest⟩ :: p⟩ :: childrenZAux d (c :: bef) rest p

def childrenZ : ZNode → List ZNode
  | ⟨.mk d cs, p⟩ => childrenZAux d [] cs p

/-- `findFirstNamedChildOfType` keeping the zipper. -/
def findFirstNamedChildOfTypeZ (t : String) (n : ZNode) : Option ZNode :=
  (childrenZ n).find? (fun c => c.kind = t)

/-- `findAllNamedChildrenOfType` keeping the zipper. -/
def findAllNamedChildrenOfTypeZ (ts : List String) (n : ZNode) : Option (List ZNode) :=
  let result := (childrenZ n).filter (fun c => ts.contains c.kind)
  if result.isEmpty then none else some result

mutual

/-- `node.descendantsOfType(t)` keeping the zipper. -/
def descendantsOfTypeZ (s : SNode) (p : List Ctx) (t : String) : List ZNode :=
  match s with
  | .mk d cs => (if d.kind = t then [⟨.mk d cs, p⟩] else []) ++ descendantsZList d [] cs p t

def descendantsZList (d : NData) (bef : List SNode) (aft : List SNode) (p : List Ctx)
    (t : String) : List ZNode :=
  match aft with
  | [] => []
  | c :: rest =>
    descendantsOfTypeZ c (⟨d, bef, rest⟩ :: p) t ++ descendantsZList d (c :: bef) rest p t

end

/-! ## Structural type/record resolution chains -/

/-- `TreeUtils.getTypeOrTypeAliasOfFunctionParameter`: look three levels
up from a parameter pattern, require a preceding `type_annotation`, and
index the annotation's listed argument types at the ordinal position of
the first pattern child whose text matches the node's text.  JS
`findIndex` yielding `-1` and out-of-range array indexing both produce
`undefined`, modelled as `none`. -/
def getTypeOrTypeAliasOfFunctionParameter (node : Option ZNode) : Option ZNode :=
  match node with
  | none => none
  | some n =>
    match n.parent with
    | none => none
    | some p1 =>
      match p1.parent with
      | none => none
      | some p2 =>
        match p2.parent with
        | none => none
        | some p3 =>
          match p3.previousNamedSibling with
          | none => none
          | some prevSib =>
            if prevSib.kind = "type_annotation" then
              match prevSib.lastNamedChild with
              | none => none
              | some lastChild =>
                match findAllNamedChildrenOfTypeZ ["pattern", "lower_pattern"] p2 with
                | none => none
                | some functionParameterNodes =>
                  let matchIndex :=
                    functionParameterNodes.findIdx? (fun a => a.text == n.text)
                  match findAllNamedChildrenOfTypeZ ["type_ref", "type_expression"] lastChild with
                  | none => none
                  | some typeAnnotationNodes =>
                    matchIndex.bind fun i => typeAnnotationNodes.get? i
            else none

/-- `TreeUtils.getReturnTypeOrTypeAliasOfFunctionDefinition`.  When the
preceding sibling is a `type_annotation` with no `type_ref` descendant,
the JS code indexes the empty array at `-1` and dereferences
`undefined` (`type.firstNamedChild`), a thrown `TypeError`, modelled as
`.error ()`. -/
def getReturnTypeOrTypeAliasOfFunctionDefinition (node : Option ZNode) :
    Except Unit (Option ZNode) :=
  match node with
  | none => .ok none
  | some n =>
    match n.previousNamedSibling with
    | none => .ok none
    | some prevSib =>
      if prevSib.kind = "type_annotation" then
        let typeAnnotationNodes := descendantsOfTypeZ prevSib.focus prevSib.path "type_ref"
        match typeAnnotationNodes.getLast? with
        | none => .error ()
        | some ty =>
          .ok (some (((ty.firstNamedChild).bind ZNode.firstNamedChild).getD ty))
      else .ok none

/-- A per-file tree container (`ITreeContainer`): file identity plus tree. -/
structure TreeContainer where
  uri : String
  tree : SNode

/-- A definition result from the external checker. -/
structure DefRes where
  node : ZNode
  uri : String
  nodeType : String

/-- The external collaborators of the resolution chains: the checker's
single-hop `findDefinition` and the forest's `getByUri`. -/
structure CheckerEnv where
  findDefinition : ZNode → TreeContainer → Option DefRes
  getByUri : String → Option TreeContainer

/-- A `{node, uri}` record/type-alias resolution result. -/
structure RecRes where
  node : ZNode
  uri : String

/-- `TreeUtils.getTypeAliasOfRecord`. -/
def getTypeAliasOfRecord (env : CheckerEnv) (node : Option ZNode)
    (treeContainer : TreeContainer) : Except Unit (Option RecRes) :=
  match node with
  | none => .ok none
  | some n =>
    match n.parent with
    | none => .ok none
    | some p1 =>
      match p1.parent with
      | none => .ok none
      | some p2 => do
        let type0 : Option ZNode :=
          (findFirstNamedChildOfTypeZ "record_base_identifier" p2).orElse
            fun _ => findFirstNamedChildOfTypeZ "record_base_identifier" p1
        let type1 : Option ZNode ←
          match type0 with
          | some ty => pure (some ty)
          | none =>
            match p2.parent with
            | some p3 => do
              let r ← getReturnTypeOrTypeAliasOfFunctionDefinition (some p3)
              pure (r.bind ZNode.parent)
            | none => pure none
        let type2 : ZNode := match type1 with | some ty => ty | none => n
        let target : ZNode := match type2.firstNamedChild with | some c => c | none => type2
        match env.findDefinition target treeContainer with
        | none => pure none
        | some definitionNode =>
          let definitionTree := env.getByUri definitionNode.uri
          if definitionNode.nodeType = "TypeAlias" then
            pure (some ⟨definitionNode.node, definitionNode.uri⟩)
          else do
            let aliasNode : Option ZNode ←
              if definitionNode.nodeType = "FunctionParameter" then
                match definitionNode.node.firstNamedChild with
                | some firstChild =>
                  pure (getTypeOrTypeAliasOfFunctionParameter (some firstChild))
                | none => pure none
              else if definitionNode.nodeType = "Function" then
                getReturnTypeOrTypeAliasOfFunctionDefinition (some definitionNode.node)
              else if definitionNode.nodeType = "FieldType" then
                pure (findFirstNamedChildOfTypeZ "type_expression" definitionNode.node)
              else pure none
            match aliasNode, definitionTree with
            | some an, some dt =>
              match descendantsOfTypeZ an.focus an.path "upper_case_identifier" with
              | childNode :: _ =>
                match env.findDefinition childNode dt with
                | some typeNode => pure (some ⟨typeNode.node, typeNode.uri⟩)
                | none => pure none
              | [] => pure none
            | _, _ => pure none

/-- Post-loop processing of `TreeUtils.getTypeAliasOfRecordField`: find
the `field_type` of the resolved record alias matching the original
field name and resolve its type expression's first upper-case
identifier through the checker. -/
def recordFieldPost (env : CheckerEnv) (fieldName : Option String)
    (recordType : Option RecRes) : Option RecRes :=
  let recordTypeTree := env.getByUri ((recordType.map (·.uri)).getD "")
  match recordType, recordTypeTree with
  | some rt, some rtt =>
    let fieldTypes := descendantsOfTypeZ rt.node.focus rt.node.path "field_type"
    match fieldTypes.find?
        (fun a => ((findFirstNamedChildOfTypeZ "lower_case_identifier" a).map ZNode.text)
          == fieldName) with
    | some fieldNode =>
      match findFirstNamedChildOfTypeZ "type_expression" fieldNode with
      | some typeExpression =>
        match descendantsOfTypeZ typeExpression.focus typeExpression.path
            "upper_case_identifier" with
        | typeNode :: _ =>
          match env.findDefinition typeNode rtt with
          | some typeAliasNode => some ⟨typeAliasNode.node, typeAliasNode.uri⟩
          | none => none
        | [] => none
      | none => none
    | none => none
  | _, _ => none

/-- Zipper depth of an optional node (bounded by the tree's depth). -/
def zlen : Option ZNode → Nat
  | none => 0
  | some z => z.path.length

/-- `node?.parent?.parent` on an optional node. -/
def grandParent (node : Option ZNode) : Option ZNode :=
  (node.bind ZNode.parent).bind ZNode.parent

mutual

/-- `TreeUtils.getTypeAliasOfRecordField`, instrumented with explicit
fuel so that the retry loop's termination can be stated: the outer
`Option` is `none` exactly when the fuel runs out.  One unit of fuel is
consumed per (recursive) entry into the function. -/
def getTypeAliasOfRecordFieldFuel (env : CheckerEnv) (fuel : Nat) (node : Option ZNode)
    (treeContainer : TreeContainer) : Option (Except Unit (Option RecRes)) :=
  match fuel with
  | 0 => none
  | fuel' + 1 =>
    let fieldName : Option String :=
      ((node.bind ZNode.parent).bind ZNode.firstNamedChild).map ZNode.text
    match getTypeAliasOfRecord env node treeContainer with
    | .error e => some (.error e)
    | .ok recordType0 =>
      match recordFieldLoopFuel env fuel' node recordType0 treeContainer with
      | none => none
      | some (.error e) => some (.error e)
      | some (.ok recordType) => some (.ok (recordFieldPost env fieldName recordType))
termination_by (fuel, zlen node)
decreasing_by
  exact Prod.Lex.left _ _ (Nat.lt_succ_self _)

/-- The retry loop of `getTypeAliasOfRecordField`:
`while (!recordType && node?.parent?.parent) { node = node.parent.parent;
recordType = getTypeAliasOfRecordField(node, ...) }`. -/
def recordFieldLoopFuel (env : CheckerEnv) (fuel : Nat) (node : Option ZNode)
    (recordType : Option RecRes) (treeContainer : TreeContainer) :
    Option (Except Unit (Option RecRes)) :=
  match recordType with
  | some r => some (.ok (some r))
  | none =>
    match h : grandParent node with
    | none => some (.ok none)
    | some n' =>
      match getTypeAliasOfRecordFieldFuel env fuel (some n') treeContainer with
      | none => none
      | some (.error e) => some (.error e)
      | some (.ok r') => recordFieldLoopFuel env fuel (some n') r' treeContainer
termination_by (fuel, zlen node)
decreasing_by
  all_goals
    refine Prod.Lex.right _ ?_
    cases node with
    | none => simp [grandParent] at h
    | some z =>
      cases z with
      | mk s path =>
        cases path with
        | nil => simp [grandParent, ZNode.parent, Option.bind] at h
        | cons c cs =>
          cases cs with
          | nil => simp [grandParent, ZNode.parent, Option.bind] at h
          | cons c2 cs2 =>
            simp [grandParent, ZNode.parent, Option.bind] at h
            subst h
            simp [zlen]
            omega

end

/-! ## The incremental reparse handler (`ASTProvider`) -/

/-- The mutable state the handler touches: the forest (file identity to
tree) and the import tables. -/
structure ServerState (Tree Imports : Type) where
  forest : String → Option Tree
  imports : Imports

/-- One reported content change (its full replacement text). -/
structure ChangeEvent where
  text : String

/-- `ASTProvider.handleChangeTextDocument`, with the parser, the file
storage and `imports.updateImports` as external collaborators.  Returns
the new state and the list of file identities read from storage. -/
def handleChangeTextDocument {Tree Imports : Type}
    (parse : String → Tree) (readFile : String → String)
    (updateImports : String → Tree → (String → Option Tree) → Imports → Imports)
    (st : ServerState Tree Imports) (uri : String) (contentChanges : List ChangeEvent) :
    ServerState Tree Imports × List String :=
  let fromForest := st.forest uri
  let (tree0, reads) :=
    match fromForest with
    | some t => (t, ([] : List String))
    | none => (parse (readFile uri), [uri])
  let tree := contentChanges.foldl (fun _ changeEvent => parse changeEvent.text) tree0
  let newForest := fun u => if u = uri then some tree else st.forest u
  (⟨newForest, updateImports uri tree newForest st.imports⟩, reads)

/-! ## Concrete fixtures -/

/-- A leaf node with default span. -/
def leafN (kind : String) (namd : Bool) (text : String) : SNode :=
  .mk ⟨kind, namd, text, none, ⟨0, 0⟩, ⟨0, 0⟩⟩ []

/-- `foo bar` on one line: two identifier tokens. -/
def fooIdent : SNode := .mk ⟨"lower_case_identifier", true, "foo", none, ⟨0, 0⟩, ⟨0, 3⟩⟩ []

def barIdent : SNode := .mk ⟨"lower_case_identifier", true, "bar", none, ⟨0, 4⟩, ⟨0, 7⟩⟩ []

def fooBarTree : SNode := .mk ⟨"file", true, "foo bar", none, ⟨0, 0⟩, ⟨0, 7⟩⟩ [fooIdent, barIdent]

/-- A one-line, one-character file. -/
def oneCharTree : SNode := .mk ⟨"file", true, "x", none, ⟨0, 0⟩, ⟨0, 1⟩⟩ []

/-- `module M exposing (..)`. -/
def doubleDotNode : SNode := leafN "double_dot" true ".."

def wildExposing : SNode :=
  .mk ⟨"exposing_list", true, "exposing (..)", none, ⟨0, 0⟩, ⟨0, 0⟩⟩ [doubleDotNode]

def wildModule : SNode :=
  .mk ⟨"module_declaration", true, "module M exposing (..)", some "moduleDeclaration",
    ⟨0, 0⟩, ⟨0, 0⟩⟩ [wildExposing]

def wildTree : SNode :=
  .mk ⟨"file", true, "module M exposing (..)", none, ⟨0, 0⟩, ⟨0, 0⟩⟩ [wildModule]

/-- `module M exposing (foo, Bar)`. -/
def expFoo : SNode := leafN "exposed_value" true "foo"

def expBar : SNode := leafN "exposed_type" true "Bar"

def explicitExposing : SNode :=
  .mk ⟨"exposing_list", true, "exposing (foo, Bar)", none, ⟨0, 0⟩, ⟨0, 0⟩⟩ [expFoo, expBar]

def explicitModule : SNode :=
  .mk ⟨"module_declaration", true, "module M exposing (foo, Bar)", some "moduleDeclaration",
    ⟨0, 0⟩, ⟨0, 0⟩⟩ [explicitExposing]

def explicitTree : SNode :=
  .mk ⟨"file", true, "module M exposing (foo, Bar)", none, ⟨0, 0⟩, ⟨0, 0⟩⟩ [explicitModule]

/-- Field references for `findFieldReference`. -/
def goodRef : FieldRef := ⟨leafN "field_type" true "x : Int", "file:///Main.elm"⟩

def goodRecord : TypeShape :=
  ⟨"Record", fun f => if f = "x" then [goodRef] else []⟩

def emptyUriRef : FieldRef := ⟨leafN "field_type" true "x : Int", ""⟩

def emptyUriRecord : TypeShape :=
  ⟨"Record", fun f => if f = "x" then [emptyUriRef] else []⟩

/-- `f : Int -> Bool` over `f x = 0`: an annotated declaration with one
parameter, for the parameter-type ordinal lookup. -/
def paramIdent : SNode := leafN "lower_case_identifier" true "x"

def paramPattern : SNode := .mk ⟨"lower_pattern", true, "x", none, ⟨0, 0⟩, ⟨0, 0⟩⟩ [paramIdent]

def fnNameNode : SNode := leafN "lower_case_identifier" true "f"

def fdlNode : SNode :=
  .mk ⟨"function_declaration_left", true, "f x", none, ⟨0, 0⟩, ⟨0, 0⟩⟩ [fnNameNode, paramPattern]

def bodyNode : SNode := leafN "number_constant_expr" true "0"

def valueDeclNode : SNode :=
  .mk ⟨"value_declaration", true, "f x = 0", none, ⟨0, 0⟩, ⟨0, 0⟩⟩ [fdlNode, bodyNode]

def typeRefInt : SNode :=
  .mk ⟨"type_ref", true, "Int", none, ⟨0, 0⟩, ⟨0, 0⟩⟩ [leafN "upper_case_identifier" true "Int"]

def typeRefBool : SNode :=
  .mk ⟨"type_ref", true, "Bool", none, ⟨0, 0⟩, ⟨0, 0⟩⟩ [leafN "upper_case_identifier" true "Bool"]

def arrowTok : SNode := leafN "arrow" false "->"

def typeExprNode : SNode :=
  .mk ⟨"type_expression", true, "Int -> Bool", none, ⟨0, 0⟩, ⟨0, 0⟩⟩
    [typeRefInt, arrowTok, typeRefBool]

def colonTok : SNode := leafN "colon" false ":"

def typeAnnNode : SNode :=
  .mk ⟨"type_annotation", true, "f : Int -> Bool", none, ⟨0, 0⟩, ⟨0, 0⟩⟩
    [leafN "lower_case_identifier" true "f", colonTok, typeExprNode]

def annotatedFile : SNode :=
  .mk ⟨"file", true, "f : Int -> Bool\nf x = 0", none, ⟨0, 0⟩, ⟨0, 0⟩⟩
    [typeAnnNode, valueDeclNode]

/-- The parameter identifier `x` focused inside `annotatedFile`. -/
def paramZ : ZNode :=
  ⟨paramIdent,
    [⟨paramPattern.dat, [], []⟩,
     ⟨fdlNode.dat, [fnNameNode], []⟩,
     ⟨valueDeclNode.dat, [], [bodyNode]⟩,
     ⟨annotatedFile.dat, [typeAnnNode], []⟩]⟩

/-- A checker environment resolving nothing, and a trivial container. -/
def emptyEnv : CheckerEnv := ⟨fun _ _ => none, fun _ => none⟩

def trivialContainer : TreeContainer := ⟨"file:///Main.elm", oneCharTree⟩

/-- A deep standalone zipper for the retry-loop bound. -/
def deepZ : ZNode :=
  ⟨paramIdent,
    [⟨paramPattern.dat, [], []⟩,
     ⟨fdlNode.dat, [fnNameNode], []⟩,
     ⟨valueDeclNode.dat, [], [bodyNode]⟩,
     ⟨annotatedFile.dat, [typeAnnNode], []⟩]⟩

/-- A server state with an empty forest, for the reparse handler. -/
def emptyServerState : ServerState String Nat := ⟨fun _ => none, 0⟩

/-! # Theorems -/

/-- `foldl` with an accumulator-ignoring function keeps only the last
element's image. -/
theorem foldl_const_fun {α β : Type} (f : α → β) (l : List α) (b : β) :
    l.foldl (fun _ a => f a) b = (l.getLast?.map f).getD b := by
  induction l generalizing b with
  | nil => rfl
  | cons x xs ih =>
    cases xs with
    | nil => rfl
    | cons y ys =>
      rw [List.foldl_cons, ih, List.getLast?_cons_cons,
        List.getLast?_eq_getLast (y :: ys) (by simp)]
      rfl

/-- An `if` whose branches are both `.ok` always yields some `.ok`. -/
theorem exists_ok_ite {α : Type} (c : Prop) [Decidable c] (a b : α) :
    ∃ r, (if c then Except.ok (ε := Unit) a else Except.ok b) = .ok r := by
  by_cases hc : c
  · exact ⟨a, by rw [if_pos hc]⟩
  · exact ⟨b, by rw [if_neg hc]⟩

/-- C1 counterexample: a `Record` type whose field has a non-empty
reference list still yields no result when the first reference's tree
carries an empty (falsy) uri, because of the `if (refUri)` guard. -/
theorem findFieldReference_nonempty_cex :
    emptyUriRecord.nodeType = "Record" ∧
    emptyUriRecord.fieldReferences "x" ≠ [] ∧
    findFieldReference emptyUriRecord "x" = none := by
  refine ⟨rfl, ?_, rfl⟩
  simp [emptyUriRecord]

/-- C1 (amended): `findFieldReference` yields an explicit `none` when
the type is not a `Record` or the field's reference list is empty; for
a `Record` with a non-empty list it returns the first reference with
kind `FieldType` and that reference's file identity, provided the
identity is a non-empty string (otherwise it yields `none`). -/
theorem findFieldReference_characterization (t : TypeShape) (f : String) :
    (t.nodeType ≠ "Record" → findFieldReference t f = none) ∧
    (t.fieldReferences f = [] → findFieldReference t f = none) ∧
    (t.nodeType = "Record" → ∀ fr rest, t.fieldReferences f = fr :: rest →
      findFieldReference t f =
        if fr.treeUri ≠ "" then some ⟨fr.node, fr.treeUri, "FieldType"⟩ else none) := by
  refine ⟨?_, ?_, ?_⟩
  · intro h
    simp [findFieldReference, h]
  · intro h
    by_cases hr : t.nodeType = "Record" <;> simp [findFieldReference, h, hr]
  · intro hr fr rest h
    simp [findFieldReference, hr, h]

/-- C1 witness: a `Record` with one reference under a real uri. -/
theorem findFieldReference_example :
    findFieldReference goodRecord "x" =
      some ⟨goodRef.node, "file:///Main.elm", "FieldType"⟩ := by
  have h := (findFieldReference_characterization goodRecord "x").2.2 rfl goodRef []
    (by simp [goodRecord])
  simpa [goodRef] using h

/-- C4: when the module declaration's exposing list carries the
wildcard marker `(..)`, `isExposedFunction` and
`isExposedTypeOrTypeAlias` answer `true` for every name; when the tree
has no module declaration, both answer `false`. -/
theorem wildcard_exposing (t : SNode) (name : String) :
    (∀ m el, findModuleDeclaration t = some m →
      findFirstNamedChildOfType "exposing_list" m = some el →
      (findFirstNamedChildOfType "double_dot" el).isSome = true →
      isExposedFunction t name = true ∧ isExposedTypeOrTypeAlias t name = true) ∧
    (findModuleDeclaration t = none →
      isExposedFunction t name = false ∧ isExposedTypeOrTypeAlias t name = false) := by
  constructor
  · intro m el h1 h2 h3
    constructor
    · simp [isExposedFunction, h1, h2, h3]
    · simp [isExposedTypeOrTypeAlias, h1, h2, h3]
  · intro h
    constructor
    · simp [isExposedFunction, h]
    · simp [isExposedTypeOrTypeAlias, h]

/-- C4 witness: names listed nowhere are exposed under the wildcard. -/
theorem wildcard_exposing_example :
    isExposedFunction wildTree "someUnlistedName" = true ∧
    isExposedTypeOrTypeAlias wildTree "SomeUnlistedType" = true :=
  ⟨((wildcard_exposing wildTree "someUnlistedName").1 wildModule wildExposing rfl rfl rfl).1,
   ((wildcard_exposing wildTree "SomeUnlistedType").1 wildModule wildExposing rfl rfl rfl).2⟩

/-- C5: with an explicit (non-wildcard) exposing list,
`isExposedFunction` is true exactly when some `exposed_value` entry's
text equals the name, and `isExposedTypeOrTypeAlias` exactly when some
`exposed_type` entry's text starts with the name. -/
theorem explicit_exposing_scan (t m el : SNode) (name : String)
    (h1 : findModuleDeclaration t = some m)
    (h2 : findFirstNamedChildOfType "exposing_list" m = some el)
    (h3 : findFirstNamedChildOfType "double_dot" el = none) :
    (isExposedFunction t name = true ↔
      ∃ v ∈ descendantsOfType m "exposed_value", v.text = name) ∧
    (isExposedTypeOrTypeAlias t name = true ↔
      ∃ v ∈ descendantsOfType m "exposed_type", strStartsWith v.text name = true) := by
  constructor
  · simp [isExposedFunction, h1, h2, h3, List.any_eq_true]
  · simp [isExposedTypeOrTypeAlias, h1, h2, h3, List.any_eq_true]

/-- C5 witness: `module M exposing (foo, Bar)` exposes `foo` and `Bar`
but not `baz`. -/
theorem explicit_exposing_example :
    isExposedFunction explicitTree "foo" = true ∧
    isExposedFunction explicitTree "baz" = false ∧
    isExposedTypeOrTypeAlias explicitTree "Bar" = true := by
  have hfoo := explicit_exposing_scan explicitTree explicitModule explicitExposing "foo"
    rfl rfl rfl
  have hbar := explicit_exposing_scan explicitTree explicitModule explicitExposing "Bar"
    rfl rfl rfl
  refine ⟨hfoo.1.mpr ⟨expFoo, ?_, rfl⟩, rfl, hbar.2.mpr ⟨expBar, ?_, rfl⟩⟩
  · exact List.mem_singleton.mpr rfl
  · exact List.mem_singleton.mpr rfl

/-- C10: under a wildcard exposing list, `findExposedFunctionNode` and
`findExposedTypeOrTypeAliasNode` yield `none` for every name, even
though `isExposedFunction` and `isExposedTypeOrTypeAlias` answer `true`
for the same names on any tree whose module declaration is that node. -/
theorem wildcard_node_lookup (n el : SNode) (name : String)
    (h1 : findFirstNamedChildOfType "exposing_list" n = some el)
    (h2 : (findFirstNamedChildOfType "double_dot" el).isSome = true) :
    findExposedFunctionNode n name = none ∧
    findExposedTypeOrTypeAliasNode n name = none ∧
    (∀ t, findModuleDeclaration t = some n →
      isExposedFunction t name = true ∧ isExposedTypeOrTypeAlias t name = true) := by
  refine ⟨?_, ?_, ?_⟩
  · simp [findExposedFunctionNode, h1, h2]
  · simp [findExposedTypeOrTypeAliasNode, h1, h2]
  · intro t ht
    constructor
    · simp [isExposedFunction, ht, h1, h2]
    · simp [isExposedTypeOrTypeAlias, ht, h1, h2]

/-- C10 witness: the wildcard module exposes `foo` yet the node lookup
returns nothing for it. -/
theorem wildcard_node_lookup_example :
    findExposedFunctionNode wildModule "foo" = none ∧
    findExposedTypeOrTypeAliasNode wildModule "Foo" = none ∧
    isExposedFunction wildTree "foo" = true := by
  have h := wildcard_node_lookup wildModule wildExposing "foo" rfl rfl
  have h2 := wildcard_node_lookup wildModule wildExposing "Foo" rfl rfl
  exact ⟨h.1, h2.2.1, (h.2.2 wildTree rfl).1⟩

/-- C2 counterexample: a position whose line is past the last line of
the file makes `getNamedDescendantForPosition` dereference `undefined`
(the JS `TypeError` is the `.error` value), so the position-to-node
mapping is not total. -/
theorem position_lookup_out_of_file_fault :
    getNamedDescendantForPosition oneCharTree ⟨1, 0⟩ = .error () := rfl

/-- C2 (amended): the line-relative lookups are total and clamp at the
file start, and the position-to-node mapping returns a node without
fault whenever the position's line is within the file's split lines;
for a line past the end it faults. -/
theorem navigation_totality (node : SNode) (position : Pos) :
    (position.row < (splitLinesJS node.text.data).length →
      ∃ result, getNamedDescendantForPosition node position = .ok result) ∧
    ((splitLinesJS node.text.data).length ≤ position.row →
      getNamedDescendantForPosition node position = .error ()) ∧
    getNamedDescendantForLineBeforePosition node position =
      tsNamedDescendantForPoint node ⟨position.row - 1, 0⟩ ∧
    getNamedDescendantForLineAfterPosition node position =
      tsNamedDescendantForPoint node ⟨position.row + 1, 0⟩ := by
  refine ⟨?_, ?_, ?_, rfl⟩
  · intro h
    unfold getNamedDescendantForPosition
    rw [List.get?_eq_get h]
    exact exists_ok_ite _ _ _
  · intro h
    unfold getNamedDescendantForPosition
    rw [List.get?_eq_none.mpr h]
  · unfold getNamedDescendantForLineBeforePosition
    rcases position with ⟨row, col⟩
    cases row <;> simp

/-- C2 witness: an in-file position resolves without fault. -/
theorem navigation_totality_example :
    0 < (splitLinesJS fooBarTree.text.data).length ∧
    (∃ result, getNamedDescendantForPosition fooBarTree ⟨0, 5⟩ = .ok result) :=
  ⟨by decide, (navigation_totality fooBarTree ⟨0, 5⟩).1 (by decide)⟩

/-- C6: the reparse handler reads from storage only when the forest has
no tree for the file, reparses the entire buffer text of each change
(the installed tree is the parse of the last change's full text,
independent of any previous tree), replaces exactly the one forest
entry, and recomputes that file's import tables against the updated
forest. -/
theorem handleChange_spec {Tree Imports : Type}
    (parse : String → Tree) (readFile : String → String)
    (updateImports : String → Tree → (String → Option Tree) → Imports → Imports)
    (st : ServerState Tree Imports) (uri : String) (contentChanges : List ChangeEvent) :
    (handleChangeTextDocument parse readFile updateImports st uri contentChanges).2 =
      (if (st.forest uri).isSome then [] else [uri]) ∧
    (∀ lastChange, contentChanges.getLast? = some lastChange →
      (handleChangeTextDocument parse readFile updateImports st uri contentChanges).1.forest uri =
        some (parse lastChange.text)) ∧
    (contentChanges = [] →
      (handleChangeTextDocument parse readFile updateImports st uri contentChanges).1.forest uri =
        some (match st.forest uri with | some t => t | none => parse (readFile uri))) ∧
    (∀ u, u ≠ uri →
      (handleChangeTextDocument parse readFile updateImports st uri contentChanges).1.forest u =
        st.forest u) ∧
    (∃ newTree,
      (handleChangeTextDocument parse readFile updateImports st uri contentChanges).1.forest uri =
        some newTree ∧
      (handleChangeTextDocument parse readFile updateImports st uri contentChanges).1.imports =
        updateImports uri newTree
          (handleChangeTextDocument parse readFile updateImports st uri contentChanges).1.forest
          st.imports) := by
  refine ⟨?_, ?_, ?_, ?_, ?_⟩
  · cases h : st.forest uri <;> simp [handleChangeTextDocument, h]
  · intro lastChange hlast
    simp [handleChangeTextDocument, foldl_const_fun, hlast]
  · intro h
    subst h
    cases h : st.forest uri <;> simp [handleChangeTextDocument, h]
  · intro u hu
    simp [handleChangeTextDocument, hu]
  · exact ⟨_, by simp [handleChangeTextDocument], rfl⟩

/-- C6 witness: on an empty forest, a change notification installs the
parse of the change's full text. -/
theorem handleChange_example :
    (handleChangeTextDocument (fun s => s) (fun _ => "stored") (fun _ _ _ n => n + 1)
      emptyServerState "file:///A.elm" [⟨"module A exposing (..)"⟩]).1.forest "file:///A.elm" =
      some "module A exposing (..)" :=
  (handleChange_spec (fun s => s) (fun _ => "stored") (fun _ _ _ n => n + 1)
    emptyServerState "file:///A.elm" [⟨"module A exposing (..)"⟩]).2.1 _ rfl

/-- C3: the position-to-node mapping inspects the single character
immediately before the cursor column.  If it is an identifier character
(`[A-Za-z0-9_]`) the lookup is over the range from the previous column
to the cursor column on that line; otherwise — including a cursor at
column 0, which has no preceding character, and a cursor past the end
of its line — it is a point lookup at the exact column.  On the text
`foo bar`, a cursor at column 3 maps to the `foo` identifier node. -/
theorem position_lookup_char_policy (node : SNode) (position : Pos) (line : List Char)
    (h : (splitLinesJS node.text.data).get? position.row = some line) :
    (∀ c, line.get? (position.col - 1) = some c → 0 < position.col →
      (c.isAlphanum || c = '_') = true →
      getNamedDescendantForPosition node position =
        .ok (tsNamedDescendantForRange node ⟨position.row, position.col - 1⟩
          ⟨position.row, position.col⟩)) ∧
    (∀ c, line.get? (position.col - 1) = some c → 0 < position.col →
      (c.isAlphanum || c = '_') = false →
      getNamedDescendantForPosition node position =
        .ok (tsNamedDescendantForPoint node ⟨position.row, position.col⟩)) ∧
    (position.col = 0 →
      getNamedDescendantForPosition node position =
        .ok (tsNamedDescendantForPoint node ⟨position.row, position.col⟩)) ∧
    (0 < position.col → line.get? (position.col - 1) = none →
      getNamedDescendantForPosition node position =
        .ok (tsNamedDescendantForPoint node ⟨position.row, position.col⟩)) ∧
    getNamedDescendantForPosition fooBarTree ⟨0, 3⟩ = .ok fooIdent ∧
    getNamedDescendantForPosition fooBarTree ⟨0, 0⟩ =
      .ok (tsNamedDescendantForPoint fooBarTree ⟨0, 0⟩) := by
  have key : ∀ c, 0 < position.col → line.get? (position.col - 1) = some c →
      getNamedDescendantForPosition node position =
        if (c.isAlphanum || c = '_') then
          .ok (tsNamedDescendantForRange node ⟨position.row, position.col - 1⟩
            ⟨position.row, position.col⟩)
        else .ok (tsNamedDescendantForPoint node ⟨position.row, position.col⟩) := by
    intro c hc hget
    obtain ⟨hlt, hcc⟩ := List.get?_eq_some.mp hget
    have e1 : line.drop (position.col - 1) = c :: line.drop (position.col - 1 + 1) := by
      rw [List.drop_eq_getElem_cons hlt]
      simp [← hcc]
    have e2 : position.col - (position.col - 1) = 1 := by omega
    simp only [getNamedDescendantForPosition, h, if_neg (show ¬ position.col = 0 by omega),
      e1, e2, List.take_succ_cons, List.take_zero]
    have e3 : hasIdentChar [c] = (c.isAlphanum || c = '_') := by
      simp [hasIdentChar]
    rw [e3]
    cases hcase : (c.isAlphanum || decide (c = '_')) <;> simp [hcase]
  refine ⟨?_, ?_, ?_, ?_, rfl, rfl⟩
  · intro c hget hc hident
    rw [key c hc hget, if_pos hident]
  · intro c hget hc hident
    rw [key c hc hget, if_neg (by simp [hident])]
  · intro hc
    have : hasIdentChar ((line.drop (if position.col = 0 then 0 else position.col - 1)).take
        (position.col - (if position.col = 0 then 0 else position.col - 1))) = false := by
      simp [hc, hasIdentChar]
    simp only [getNamedDescendantForPosition, h, this]
    rfl
  · intro hc hget
    have hlen : line.length ≤ position.col - 1 := List.get?_eq_none.mp hget
    have e1 : line.drop (position.col - 1) = [] := List.drop_eq_nil_of_le hlen
    simp only [getNamedDescendantForPosition, h, if_neg (show ¬ position.col = 0 by omega), e1,
      List.take_nil]
    rfl

/-- C3 witness: on `foo bar` with the cursor at column 3 the character
before the cursor is `o`, so the lookup is over the range `[2, 3)` and
lands on the `foo` identifier. -/
theorem position_lookup_char_policy_example :
    getNamedDescendantForPosition fooBarTree ⟨0, 3⟩ =
      .ok (tsNamedDescendantForRange fooBarTree ⟨0, 2⟩ ⟨0, 3⟩) :=
  (position_lookup_char_policy fooBarTree ⟨0, 3⟩ "foo bar".data rfl).1 'o' rfl
    (by decide) (by decide)

/-- C7: the parameter-type lookup indexes the annotation's listed
argument types at the ordinal position of the (first) pattern child
whose text matches the parameter node's text; a missing match or an
annotation listing fewer types than that position yields an explicit
`none`, never an out-of-range fault. -/
theorem functionParameter_ordinal_lookup
    (n p1 p2 p3 prevSib lastChild : ZNode) (fns tns : List ZNode)
    (h1 : n.parent = some p1) (h2 : p1.parent = some p2) (h3 : p2.parent = some p3)
    (h4 : p3.previousNamedSibling = some prevSib)
    (h5 : prevSib.kind = "type_annotation")
    (h6 : prevSib.lastNamedChild = some lastChild)
    (h7 : findAllNamedChildrenOfTypeZ ["pattern", "lower_pattern"] p2 = some fns)
    (h8 : findAllNamedChildrenOfTypeZ ["type_ref", "type_expression"] lastChild = some tns) :
    getTypeOrTypeAliasOfFunctionParameter (some n) =
      (fns.findIdx? (fun a => a.text == n.text)).bind tns.get? ∧
    (fns.findIdx? (fun a => a.text == n.text) = none →
      getTypeOrTypeAliasOfFunctionParameter (some n) = none) ∧
    (∀ i, fns.findIdx? (fun a => a.text == n.text) = some i → tns.length ≤ i →
      getTypeOrTypeAliasOfFunctionParameter (some n) = none) ∧
    (∀ i ty, fns.findIdx? (fun a => a.text == n.text) = some i → tns.get? i = some ty →
      getTypeOrTypeAliasOfFunctionParameter (some n) = some ty) := by
  have base : getTypeOrTypeAliasOfFunctionParameter (some n) =
      (fns.findIdx? (fun a => a.text == n.text)).bind tns.get? := by
    simp only [getTypeOrTypeAliasOfFunctionParameter, h1, h2, h3, h4, h6, h7, h8, if_pos h5]
  refine ⟨base, ?_, ?_, ?_⟩
  · intro hnone
    rw [base, hnone]
    rfl
  · intro i hi hlen
    rw [base, hi]
    exact List.get?_eq_none.mpr hlen
  · intro i ty hi hty
    rw [base, hi]
    simpa using hty

/-- C7 witness: on `f : Int -> Bool` with `f x = 0`, the parameter `x`
(ordinal 0 among the patterns) resolves to `Int` (ordinal 0 among the
annotation's argument types). -/
theorem functionParameter_ordinal_lookup_example :
    (getTypeOrTypeAliasOfFunctionParameter (some paramZ)).map ZNode.focus =
      some typeRefInt := by
  have h := functionParameter_ordinal_lookup paramZ _ _ _ _ _ _ _
    rfl rfl rfl rfl rfl rfl rfl rfl
  rw [h.1]
  rfl

/-! ## The successor traversal visits the leaves in document order -/

/-- `scanNamed` over an arbitrary accumulator, reduced to the empty
accumulator. -/
theorem scanNamed_acc (l : List SNode) (acc : List SNode) :
    scanNamed acc l = (scanNamed [] l).map (fun t => (t.1 ++ acc, t.2.1, t.2.2)) := by
  induction l generalizing acc with
  | nil => rfl
  | cons x xs ih =>
    by_cases hx : x.namd
    · simp [scanNamed, hx]
    · rw [scanNamed, scanNamed, if_neg (by simp [hx]), if_neg (by simp [hx]),
        ih (x :: acc), ih [x]]
      cases h : scanNamed [] xs with
      | none => rfl
      | some t => simp

/-- `scanNamed` finds nothing exactly when no element is named. -/
theorem scanNamed_eq_none (l : List SNode) :
    scanNamed [] l = none ↔ l.any (·.namd) = false := by
  induction l with
  | nil => simp [scanNamed]
  | cons x xs ih =>
    by_cases hx : x.namd
    · simp [scanNamed, hx]
    · rw [scanNamed, if_neg (by simp [hx]), scanNamed_acc xs [x]]
      simp [hx, ih]

/-- Descending over a child list with no named member returns the
rebuilt node itself. -/
theorem descendFirstAux_all_unnamed (aft : List SNode) :
    ∀ (d : NData) (bef : List SNode) (p : List Ctx), aft.any (·.namd) = false →
      descendFirstAux d bef aft p = ⟨.mk d (bef.reverse ++ aft), p⟩ := by
  induction aft with
  | nil => intro d bef p _; simp [descendFirstAux]
  | cons c rest ih =>
    intro d bef p h
    simp only [List.any_cons, Bool.or_eq_false_iff] at h
    rw [descendFirstAux, if_neg (by simp [h.1]), ih d (c :: bef) p h.2]
    simp

/-- A node with no named child is its own first-leaf descent. -/
theorem descendFirst_no_named (d : NData) (cs : List SNode) (p : List Ctx)
    (h : cs.any (·.namd) = false) :
    descendFirstZ (.mk d cs) p = ⟨.mk d cs, p⟩ := by
  rw [descendFirstZ, descendFirstAux_all_unnamed cs d [] p h]
  simp

/-- Descending from a node whose first named child (after skipped
anonymous ones) is known. -/
theorem descendFirstAux_scan (aft : List SNode) :
    ∀ (d : NData) (bef : List SNode) (p : List Ctx) (sk : List SNode) (y : SNode)
      (rest : List SNode), scanNamed bef aft = some (sk, y, rest) →
      descendFirstAux d bef aft p = descendFirstZ y (⟨d, sk, rest⟩ :: p) := by
  induction aft with
  | nil => intro d bef p sk y rest h; simp [scanNamed] at h
  | cons c rest0 ih =>
    intro d bef p sk y rest h
    by_cases hc : c.namd
    · rw [scanNamed, if_pos (by simp [hc])] at h
      simp only [Option.some.injEq, Prod.mk.injEq] at h
      obtain ⟨h1, h2, h3⟩ := h
      rw [descendFirstAux, if_pos (by simp [hc]), ← h1, ← h2, ← h3]
    · rw [scanNamed, if_neg (by simp [hc])] at h
      rw [descendFirstAux, if_neg (by simp [hc]), ih d (c :: bef) p sk y rest h]

/-- One climbing step, phrased through the context's `after` list. -/
theorem climbZ_ctx (c : SNode) (d : NData) (bef rest : List SNode) (p : List Ctx) :
    climbZ c (⟨d, bef, rest⟩ :: p) =
      if (scanNamed [] rest).isSome then ⟨c, ⟨d, bef, rest⟩ :: p⟩
      else climbZ (.mk d (bef.reverse ++ c :: rest)) p := by
  cases h : scanNamed [] rest with
  | none => rw [climbZ]; simp [ZNode.nextNamedSibling, h, Ctx.rebuild]
  | some t => rw [climbZ]; simp [ZNode.nextNamedSibling, h, Ctx.rebuild]

/-- Child-list level of the traversal invariants: over any child list,
the collected leaves are nonempty exactly when a named child exists,
their head is the descent into the first named child, consecutive
leaves are `nextNode`-related, and the last leaf climbs back to (the
climb of) the rebuilt parent. -/
theorem leaves_child_chain (N : Nat)
    (ihM : ∀ s : SNode, sizeOf s < N → ∀ p : List Ctx,
      leavesZ s p ≠ [] ∧
      (leavesZ s p).head? = some (descendFirstZ s p) ∧
      List.Chain' (fun a b => nextNode a = some b) (leavesZ s p) ∧
      (∀ z, (leavesZ s p).getLast? = some z → climbZ z.focus z.path = climbZ s p)) :
    ∀ (aft : List SNode), (∀ c ∈ aft, sizeOf c < N) →
      ∀ (bef : List SNode) (d : NData) (p : List Ctx),
      (leavesChild d bef aft p = [] ↔ aft.any (·.namd) = false) ∧
      (leavesChild d bef aft p).head? =
        (scanNamed bef aft).map (fun t => descendFirstZ t.2.1 (⟨d, t.1, t.2.2⟩ :: p)) ∧
      List.Chain' (fun a b => nextNode a = some b) (leavesChild d bef aft p) ∧
      (∀ z, (leavesChild d bef aft p).getLast? = some z →
        climbZ z.focus z.path = climbZ (.mk d (bef.reverse ++ aft)) p) := by
  intro aft
  induction aft with
  | nil =>
    intro _ bef d p
    refine ⟨by simp [leavesChild], by simp [leavesChild, scanNamed], by simp [leavesChild], ?_⟩
    intro z hz
    simp [leavesChild] at hz
  | cons c rest ihc =>
    intro hmem bef d p
    have hrest := ihc (fun c' hc' => hmem c' (List.mem_cons_of_mem _ hc'))
    by_cases hc : c.namd = true
    · -- a named child: its leaves form the next block
      obtain ⟨m1, m2, m3, m4⟩ := ihM c (hmem c (List.mem_cons_self c rest)) (⟨d, bef, rest⟩ :: p)
      obtain ⟨r1, r2, r3, r4⟩ := hrest (c :: bef) d p
      have hlc : leavesChild d bef (c :: rest) p =
          leavesZ c (⟨d, bef, rest⟩ :: p) ++ leavesChild d (c :: bef) rest p := by
        rw [leavesChild, if_pos hc]
      have hscan : scanNamed bef (c :: rest) = some (bef, c, rest) := by
        rw [scanNamed, if_pos hc]
      have hbound : ∀ x ∈ (leavesZ c (⟨d, bef, rest⟩ :: p)).getLast?,
          ∀ y ∈ (leavesChild d (c :: bef) rest p).head?, nextNode x = some y := by
        intro x hx y hy
        rw [Option.mem_def] at hx hy
        have hcl := m4 x hx
        rw [r2] at hy
        rw [scanNamed_acc rest (c :: bef)] at hy
        cases hs0 : scanNamed [] rest with
        | none => rw [hs0] at hy; simp at hy
        | some t0 =>
          obtain ⟨sk0, y0, r0⟩ := t0
          rw [hs0] at hy
          simp only [Option.map_some', Option.some.injEq] at hy
          simp only [nextNode, hcl, climbZ_ctx, hs0, Option.isSome_some, if_true,
            ZNode.nextNamedSibling, Option.map_some']
          rw [← hy]
      refine ⟨?_, ?_, ?_, ?_⟩
      · rw [hlc]
        constructor
        · intro hemp
          exact absurd (List.append_eq_nil.mp hemp).1 m1
        · intro hany
          simp [hc] at hany
      · obtain ⟨a, A', hA⟩ := List.exists_cons_of_ne_nil m1
        rw [hlc, hscan, hA, List.cons_append, List.head?_cons, Option.map_some']
        rw [hA, List.head?_cons] at m2
        exact m2
      · rw [hlc]
        exact List.Chain'.append m3 r3 hbound
      · intro z hz
        rw [hlc] at hz
        by_cases hB : leavesChild d (c :: bef) rest p = []
        · rw [hB, List.append_nil] at hz
          rw [m4 z hz, climbZ_ctx,
            if_neg (by rw [(scanNamed_eq_none rest).mpr (r1.mp hB)]; simp)]
        · rw [List.getLast?_append_of_ne_nil _ hB] at hz
          rw [r4 z hz]
          have e : (c :: bef).reverse ++ rest = bef.reverse ++ c :: rest := by simp
          rw [e]
    · -- an anonymous child is skipped
      have hcf : c.namd = false := by simpa using hc
      have hlc : leavesChild d bef (c :: rest) p = leavesChild d (c :: bef) rest p := by
        rw [leavesChild, if_neg (by simp [hcf]), List.nil_append]
      have hscan : scanNamed bef (c :: rest) = scanNamed (c :: bef) rest := by
        rw [scanNamed, if_neg (by simp [hcf])]
      obtain ⟨r1, r2, r3, r4⟩ := hrest (c :: bef) d p
      refine ⟨?_, ?_, ?_, ?_⟩
      · rw [hlc, r1]
        simp [hcf]
      · rw [hlc, hscan, r2]
      · rw [hlc]
        exact r3
      · intro z hz
        rw [hlc] at hz
        rw [r4 z hz]
        have e : (c :: bef).reverse ++ rest = bef.reverse ++ c :: rest := by simp
        rw [e]

/-- Master traversal invariant: for every subtree in every context, the
document-order leaf list is nonempty, starts at the leftmost-leaf
descent, is `nextNode`-chained, and its last leaf climbs back to (the
climb of) the subtree root. -/
theorem leaves_master : ∀ (N : Nat) (s : SNode), sizeOf s < N → ∀ p : List Ctx,
    leavesZ s p ≠ [] ∧
    (leavesZ s p).head? = some (descendFirstZ s p) ∧
    List.Chain' (fun a b => nextNode a = some b) (leavesZ s p) ∧
    (∀ z, (leavesZ s p).getLast? = some z → climbZ z.focus z.path = climbZ s p) := by
  intro N
  induction N with
  | zero => intro s hs; omega
  | succ N ih =>
    intro s hs p
    obtain ⟨d, cs⟩ := s
    have hchild : ∀ c ∈ cs, sizeOf c < N := by
      intro c hcmem
      have h1 : sizeOf c < sizeOf cs := List.sizeOf_lt_of_mem hcmem
      have h2 : sizeOf cs < sizeOf (SNode.mk d cs) := by
        simp only [SNode.mk.sizeOf_spec]
        omega
      omega
    by_cases hany : cs.any (·.namd) = true
    · have hl : leavesZ (.mk d cs) p = leavesChild d [] cs p := by
        rw [leavesZ, if_pos hany]
      obtain ⟨r1, r2, r3, r4⟩ := leaves_child_chain N ih cs hchild [] d p
      refine ⟨?_, ?_, ?_, ?_⟩
      · rw [hl]
        intro hemp
        rw [r1.mp hemp] at hany
        exact Bool.false_ne_true hany
      · rw [hl, r2]
        cases hs0 : scanNamed [] cs with
        | none =>
          rw [(scanNamed_eq_none cs).mp hs0] at hany
          exact absurd hany Bool.false_ne_true
        | some t0 =>
          obtain ⟨sk0, y0, r0⟩ := t0
          rw [Option.map_some']
          rw [descendFirstZ, descendFirstAux_scan cs d [] p sk0 y0 r0 hs0]
      · rw [hl]
        exact r3
      · intro z hz
        rw [hl] at hz
        have := r4 z hz
        simpa using this
    · have hanyf : cs.any (·.namd) = false := by simpa using hany
      have hl : leavesZ (.mk d cs) p = [⟨.mk d cs, p⟩] := by
        rw [leavesZ, if_neg (by simp [hanyf])]
      refine ⟨?_, ?_, ?_, ?_⟩
      · rw [hl]
        simp
      · rw [hl, descendFirst_no_named d cs p hanyf]
        rfl
      · rw [hl]
        exact List.chain'_singleton _
      · intro z hz
        rw [hl] at hz
        simp only [List.getLast?_singleton, Option.some.injEq] at hz
        rw [← hz]

/-- A list chained by a partial successor function whose last element
has no successor has no duplicates: a repeat would give the last
element a successor. -/
theorem nodup_of_chain_step {α : Type} (f : α → Option α) (L : List α)
    (hchain : List.Chain' (fun a b => f a = some b) L)
    (hlast : ∀ z, L.getLast? = some z → f z = none) : L.Nodup := by
  rw [List.nodup_iff_injective_get]
  rw [List.chain'_iff_get] at hchain
  have getcongr : ∀ (i1 i2 : Nat) (h1 : i1 < L.length) (h2 : i2 < L.length), i1 = i2 →
      L.get ⟨i1, h1⟩ = L.get ⟨i2, h2⟩ := by
    intro i1 i2 h1 h2 he
    subst he
    rfl
  have step : ∀ (i j : Nat) (hi : i < L.length) (hj : j < L.length),
      L.get ⟨i, hi⟩ = L.get ⟨j, hj⟩ →
      ∀ (k : Nat) (hjk : j + k < L.length) (hik : i + k < L.length),
        L.get ⟨i + k, hik⟩ = L.get ⟨j + k, hjk⟩ := by
    intro i j hi hj hij k
    induction k with
    | zero =>
      intro hjk hik
      exact (getcongr _ _ hik hi (by omega)).trans
        (hij.trans (getcongr _ _ hj hjk (by omega)))
    | succ k ihk =>
      intro hjk hik
      have e2 := hchain (i + k) (by omega)
      have e1 := hchain (j + k) (by omega)
      have hk := ihk (by omega) (by omega)
      have hsome : (some (L.get ⟨i + k + 1, by omega⟩) : Option α) =
          some (L.get ⟨j + k + 1, by omega⟩) :=
        e2.symm.trans ((congrArg f hk).trans e1)
      exact Option.some.inj hsome
  have final : ∀ (i j : Nat) (hi : i < L.length) (hj : j < L.length),
      L.get ⟨i, hi⟩ = L.get ⟨j, hj⟩ → i < j → False := by
    intro i j hi hj hij hlt
    have hlastget : f (L.get ⟨L.length - 1, by omega⟩) = none := by
      apply hlast
      rw [List.getLast?_eq_getLast_of_ne_nil (by intro h; rw [h] at hj; simp at hj)]
      rw [← List.get_length_sub_one (by omega)]
    have hk := step i j hi hj hij (L.length - 1 - j) (by omega) (by omega)
    have hlastidx : L.get ⟨j + (L.length - 1 - j), by omega⟩ =
        L.get ⟨L.length - 1, by omega⟩ := getcongr _ _ (by omega) (by omega) (by omega)
    have hfnone : f (L.get ⟨i + (L.length - 1 - j), by omega⟩) = none :=
      ((congrArg f hk).trans (congrArg f hlastidx)).trans hlastget
    have hstep := hchain (i + (L.length - 1 - j)) (by omega)
    exact Option.noConfusion (hfnone.symm.trans hstep)
  rintro ⟨i, hi⟩ ⟨j, hj⟩ hij
  simp only [Fin.mk.injEq]
  rcases Nat.lt_trichotomy i j with hlt | heq | hlt
  · exact absurd hlt (fun hl => final i j hi hj hij hl)
  · exact heq
  · exact absurd hlt (fun hl => final j i hj hi hij.symm hl)

/-- C9: starting from the first leaf of a file, repeated `nextNode`
steps visit exactly the document-order list of leaves of the
named-children projection — the iteration starts at the leftmost-leaf
descent, each leaf's successor is the next leaf, the last leaf has no
successor (the iteration terminates), and no leaf is visited twice. -/
theorem nextNode_traversal (t : SNode) :
    (leavesZ t []).head? = some (descendFirstZ t []) ∧
    List.Chain' (fun a b => nextNode a = some b) (leavesZ t []) ∧
    (∀ z, (leavesZ t []).getLast? = some z → nextNode z = none) ∧
    (leavesZ t []).Nodup := by
  obtain ⟨h1, h2, h3, h4⟩ := leaves_master (sizeOf t + 1) t (by omega) []
  have hlastnone : ∀ z, (leavesZ t []).getLast? = some z → nextNode z = none := by
    intro z hz
    have hcl := h4 z hz
    simp only [nextNode, hcl]
    rfl
  exact ⟨h2, h3, hlastnone, nodup_of_chain_step nextNode (leavesZ t []) h3 hlastnone⟩

/-- C9 witness: on the `foo bar` file the leaves are `foo` then `bar`,
`nextNode` steps from `foo` to `bar`, and stops after `bar`. -/
theorem nextNode_traversal_example :
    leavesZ fooBarTree [] =
      [⟨fooIdent, [⟨fooBarTree.dat, [], [barIdent]⟩]⟩,
       ⟨barIdent, [⟨fooBarTree.dat, [fooIdent], []⟩]⟩] ∧
    nextNode ⟨barIdent, [⟨fooBarTree.dat, [fooIdent], []⟩]⟩ = none := by
  refine ⟨rfl, ?_⟩
  exact (nextNode_traversal fooBarTree).2.2.1 _ rfl

/-! ## Termination of the record-field retry loop -/

/-- Ascending two levels removes exactly two contexts. -/
theorem grandParent_zlen (node : Option ZNode) (n' : ZNode)
    (h : grandParent node = some n') : zlen (some n') + 2 = zlen node := by
  cases node with
  | none => simp [grandParent] at h
  | some z =>
    cases z with
    | mk s path =>
      cases path with
      | nil => simp [grandParent, ZNode.parent, Option.bind] at h
      | cons c cs =>
        cases cs with
        | nil => simp [grandParent, ZNode.parent, Option.bind] at h
        | cons c2 cs2 =>
          simp [grandParent, ZNode.parent, Option.bind] at h
          subst h
          simp [zlen]

/-- The retry loop stops as soon as resolution has succeeded. -/
theorem recordFieldLoopFuel_some (env : CheckerEnv) (tc : TreeContainer) (f : Nat)
    (node : Option ZNode) (r : RecRes) :
    recordFieldLoopFuel env f node (some r) tc = some (.ok (some r)) := by
  rw [recordFieldLoopFuel]

/-- The retry loop stops when the node has no parent chain to ascend. -/
theorem recordFieldLoopFuel_gpnone (env : CheckerEnv) (tc : TreeContainer) (f : Nat)
    (node : Option ZNode) (hgp : grandParent node = none) :
    recordFieldLoopFuel env f node none tc = some (.ok none) := by
  rw [recordFieldLoopFuel]
  split
  · rfl
  · simp_all

/-- One retry: ascend to the parent's parent and re-enter. -/
theorem recordFieldLoopFuel_gpsome (env : CheckerEnv) (tc : TreeContainer) (f : Nat)
    (node : Option ZNode) (n' : ZNode) (hgp : grandParent node = some n') :
    recordFieldLoopFuel env f node none tc =
      match getTypeAliasOfRecordFieldFuel env f (some n') tc with
      | none => none
      | some (.error e) => some (.error e)
      | some (.ok r') => recordFieldLoopFuel env f (some n') r' tc := by
  rw [recordFieldLoopFuel]
  split
  · simp_all
  · rename_i n'' heq
    rw [hgp] at heq
    injection heq with heq'
    subst heq'
    rfl

/-- Unfolding of the fuelled field resolution at positive fuel. -/
theorem getTypeAliasOfRecordFieldFuel_succ (env : CheckerEnv) (tc : TreeContainer) (f : Nat)
    (node : Option ZNode) :
    getTypeAliasOfRecordFieldFuel env (f + 1) node tc =
      match getTypeAliasOfRecord env node tc with
      | .error e => some (.error e)
      | .ok recordType0 =>
        match recordFieldLoopFuel env f node recordType0 tc with
        | none => none
        | some (.error e) => some (.error e)
        | some (.ok recordType) =>
          some (.ok (recordFieldPost env
            (((node.bind ZNode.parent).bind ZNode.firstNamedChild).map ZNode.text)
            recordType)) := by
  rw [getTypeAliasOfRecordFieldFuel]

/-- Fuel-stability of the field resolution and its retry loop: with
fuel at least the zipper depth (plus one for the entry), the
computation completes and the result no longer depends on the fuel. -/
theorem recordField_fuel_master (env : CheckerEnv) (tc : TreeContainer) :
    ∀ (K : Nat) (node : Option ZNode), zlen node ≤ K →
      (∀ f g, zlen node + 1 ≤ f → zlen node + 1 ≤ g →
        getTypeAliasOfRecordFieldFuel env f node tc =
          getTypeAliasOfRecordFieldFuel env g node tc ∧
        (getTypeAliasOfRecordFieldFuel env f node tc).isSome = true) ∧
      (∀ r f g, zlen node ≤ f → zlen node ≤ g →
        recordFieldLoopFuel env f node r tc = recordFieldLoopFuel env g node r tc ∧
        (recordFieldLoopFuel env f node r tc).isSome = true) := by
  intro K
  induction K using Nat.strong_induction_on with
  | _ K ihK =>
    intro node hz
    have loopPart : ∀ r f g, zlen node ≤ f → zlen node ≤ g →
        recordFieldLoopFuel env f node r tc = recordFieldLoopFuel env g node r tc ∧
        (recordFieldLoopFuel env f node r tc).isSome = true := by
      intro r f g hf hg
      cases r with
      | some rr =>
        rw [recordFieldLoopFuel_some, recordFieldLoopFuel_some]
        exact ⟨rfl, rfl⟩
      | none =>
        cases hgp : grandParent node with
        | none =>
          rw [recordFieldLoopFuel_gpnone env tc f node hgp,
            recordFieldLoopFuel_gpnone env tc g node hgp]
          exact ⟨rfl, rfl⟩
        | some n' =>
          have hzl := grandParent_zlen node n' hgp
          have hK' : zlen (some n') < K := by omega
          obtain ⟨fieldStb, loopStb⟩ := ihK (zlen (some n')) hK' (some n') (Nat.le_refl _)
          obtain ⟨hfeq, hfsome⟩ := fieldStb f g (by omega) (by omega)
          rw [recordFieldLoopFuel_gpsome env tc f node n' hgp,
            recordFieldLoopFuel_gpsome env tc g node n' hgp]
          cases hx : getTypeAliasOfRecordFieldFuel env f (some n') tc with
          | none => rw [hx] at hfsome; simp at hfsome
          | some v =>
            rw [hx] at hfeq
            rw [← hfeq]
            cases v with
            | error e => exact ⟨rfl, rfl⟩
            | ok r' => exact loopStb r' f g (by omega) (by omega)
    have fieldPart : ∀ f g, zlen node + 1 ≤ f → zlen node + 1 ≤ g →
        getTypeAliasOfRecordFieldFuel env f node tc =
          getTypeAliasOfRecordFieldFuel env g node tc ∧
        (getTypeAliasOfRecordFieldFuel env f node tc).isSome = true := by
      intro f g hf hg
      obtain ⟨f', rfl⟩ : ∃ f', f = f' + 1 := ⟨f - 1, by omega⟩
      obtain ⟨g', rfl⟩ : ∃ g', g = g' + 1 := ⟨g - 1, by omega⟩
      rw [getTypeAliasOfRecordFieldFuel_succ env tc f' node,
        getTypeAliasOfRecordFieldFuel_succ env tc g' node]
      split
      · exact ⟨rfl, rfl⟩
      · rename_i r0 heq
        obtain ⟨hleq, hlsome⟩ := loopPart r0 f' g' (by omega) (by omega)
        cases hx : recordFieldLoopFuel env f' node r0 tc with
          | none => rw [hx] at hlsome; simp at hlsome
          | some v =>
            rw [hx] at hleq
            rw [← hleq]
            cases v with
            | error e => exact ⟨rfl, rfl⟩
            | ok recT => exact ⟨rfl, rfl⟩

    exact ⟨fieldPart, loopPart⟩

/-- C8: `getTypeAliasOfRecordField` terminates on every finite input:
with fuel bounded by the node's depth (one unit per retry entry) the
fuelled computation completes, extra fuel never changes the result, and
the retry loop stops immediately once resolution succeeds (and, by
`recordFieldLoopFuel_gpnone`, when no parent chain remains). -/
theorem recordField_terminates (env : CheckerEnv) (tc : TreeContainer) (node : Option ZNode) :
    (∀ fuel, zlen node + 1 ≤ fuel →
      (getTypeAliasOfRecordFieldFuel env fuel node tc).isSome = true ∧
      getTypeAliasOfRecordFieldFuel env fuel node tc =
        getTypeAliasOfRecordFieldFuel env (zlen node + 1) node tc) ∧
    (∀ fuel r, recordFieldLoopFuel env fuel node (some r) tc = some (.ok (some r))) := by
  obtain ⟨fieldStb, _⟩ := recordField_fuel_master env tc (zlen node) node (Nat.le_refl _)
  constructor
  · intro fuel hfuel
    obtain ⟨heq, hsome⟩ := fieldStb fuel (zlen node + 1) hfuel (Nat.le_refl _)
    exact ⟨hsome, heq⟩
  · intro fuel r
    exact recordFieldLoopFuel_some env tc fuel node r

/-- C8 witness: a depth-4 node resolves within its depth bound under
the trivial checker. -/
theorem recordField_terminates_example :
    zlen (some deepZ) + 1 ≤ 9 ∧
    (getTypeAliasOfRecordFieldFuel emptyEnv 9 (some deepZ) trivialContainer).isSome = true := by
  have h := (recordField_terminates emptyEnv trivialContainer (some deepZ)).1 9 (by decide)
  exact ⟨by decide, h.1⟩
